import Mathlib

/-!
Verification of the fair-partition arithmetic and the array rebalancer.

The repository consists of two scripts:

* `processors_work_share.py` computes, for `problem_size = 2 ** 10` work
  items and `processors = 28` workers, the per-worker share sizes
  (integer-division-plus-remainder formula) and the per-worker half-open
  ranges (boundaries `floor(problem_size / processors * i)`).
* `array_rebalancing.py` moves trailing elements between a fixed list of
  arrays in a single double-nested pass so that each array reaches the
  fair target size `get_size(i, k, m) = floor(m / k * (i + 1)) - floor(m / k * i)`.

The `/` of the source is modelled as exact real-valued division (the
specification mandates real-valued division before flooring); the floor of
the resulting rational is expressed with integer division, and bridge
theorems (`boundary_spec`, `get_size_spec`, `get_sizeE_eq_floor`) certify
that the integer-division form is exactly the floor of the rational form,
so that every definition below evaluates by kernel reduction.
-/

/-- Cut point before bucket `x`: `floor(m / k * x)`, written with natural
division; `boundary_spec` proves it equal to the rational floor form. -/
def boundary (m k x : ℕ) : ℕ := m * x / k

/-- `(-a).fdiv (-b) = a.fdiv b`: flooring division is invariant under
negating both operands. -/
theorem fdiv_neg_neg (a b : ℤ) : (-a).fdiv (-b) = a.fdiv b := by
  rcases b with n | n
  · rcases n with _ | n
    · show (-a).fdiv (-(0 : ℤ)) = a.fdiv 0
      rw [neg_zero, Int.fdiv_zero, Int.fdiv_zero]
    · rcases a with m | m
      · rcases m with _ | m <;> rfl
      · rfl
  · rcases a with m | m
    · rcases m with _ | m <;> rfl
    · rfl

/-- Flooring integer division is the floor of the rational division. -/
theorem fdiv_eq_floor_div (a b : ℤ) (hb : b ≠ 0) :
    a.fdiv b = ⌊(a : ℚ) / (b : ℚ)⌋ := by
  rcases lt_or_gt_of_ne hb with hneg | hpos
  · have h1 : ((-b).toNat : ℤ) = -b := Int.toNat_of_nonneg (by omega)
    have h1q : (((-b).toNat : ℕ) : ℚ) = ((-b : ℤ) : ℚ) := by exact_mod_cast h1
    have h2 : (a : ℚ) / (b : ℚ) = ((-a : ℤ) : ℚ) / (((-b).toNat : ℕ) : ℚ) := by
      rw [h1q]
      push_cast
      rw [neg_div_neg_eq]
    rw [h2, Rat.floor_intCast_div_natCast, h1,
      ← Int.fdiv_eq_ediv (-a) (show (0 : ℤ) ≤ -b by omega), fdiv_neg_neg]
  · have h1 : (b.toNat : ℤ) = b := Int.toNat_of_nonneg hpos.le
    have h1q : ((b.toNat : ℕ) : ℚ) = (b : ℚ) := by exact_mod_cast h1
    have h2 : (a : ℚ) / (b : ℚ) = (a : ℚ) / ((b.toNat : ℕ) : ℚ) := by rw [h1q]
    rw [h2, Rat.floor_intCast_div_natCast, h1, Int.fdiv_eq_ediv a hpos.le]

/-- `boundary m k x` is exactly `floor(m / k * x)` with real-valued
division, as in the source and §4.1 of the specification. -/
theorem boundary_spec (m k x : ℕ) :
    (boundary m k x : ℤ) = ⌊(m : ℚ) / (k : ℚ) * (x : ℚ)⌋ := by
  have h1 : (m : ℚ) / (k : ℚ) * (x : ℚ) = ((m * x : ℕ) : ℤ) / ((k : ℕ) : ℚ) := by
    push_cast
    ring
  rw [h1, Rat.floor_intCast_div_natCast, boundary]
  rw [Int.ofNat_ediv]

/-- Fair share of bucket `i` among `k` buckets for total `m`
(source: `get_size(i, k, m) = floor(m / k * (i + 1)) - floor(m / k * i)`). -/
def get_size (i k m : ℕ) : ℕ := boundary m k (i + 1) - boundary m k i

/-- `boundary` is monotone in the cut index. -/
theorem boundary_mono (m k : ℕ) : Monotone (fun x => boundary m k x) := by
  intro x y hxy
  exact Nat.div_le_div_right (Nat.mul_le_mul_left m hxy)

/-- `get_size` is exactly the difference of the two rational floors of the
source text. -/
theorem get_size_spec (i k m : ℕ) :
    (get_size i k m : ℤ) =
      ⌊(m : ℚ) / (k : ℚ) * ((i : ℚ) + 1)⌋ - ⌊(m : ℚ) / (k : ℚ) * (i : ℚ)⌋ := by
  have hmono : boundary m k i ≤ boundary m k (i + 1) :=
    boundary_mono m k (Nat.le_succ i)
  have h1 : ((i + 1 : ℕ) : ℚ) = (i : ℚ) + 1 := by push_cast; ring
  rw [get_size, Int.ofNat_sub hmono, boundary_spec m k (i + 1),
    boundary_spec m k i, h1]

/-- Integer-division form of `get_size`. -/
theorem get_size_div (i k m : ℕ) : get_size i k m = m * (i + 1) / k - m * i / k := rfl

/-- Closed form: each share is the flat quotient `m / k` plus a carry bit
determined by the remainders. -/
theorem get_size_carry (i k m : ℕ) (hk : 0 < k) :
    get_size i k m = m / k + if k ≤ m * i % k + m % k then 1 else 0 := by
  rw [get_size_div]
  have h1 : m * (i + 1) = m * i + m := by ring
  rw [h1, Nat.add_div hk]
  rcases le_or_lt k (m * i % k + m % k) with h | h
  · simp only [if_pos h]
    generalize m * i / k = A
    generalize m / k = B
    omega
  · simp only [if_neg (Nat.not_le_of_lt h)]
    generalize m * i / k = A
    generalize m / k = B
    omega

/-- Every share is either the flat quotient or the flat quotient plus one. -/
theorem get_size_eq_or (i k m : ℕ) (hk : 0 < k) :
    get_size i k m = m / k ∨ get_size i k m = m / k + 1 := by
  rw [get_size_carry i k m hk]
  split <;> simp

/-- The shares over all `k` buckets sum to the total `m` (telescoping). -/
theorem sum_get_size (k m : ℕ) (hk : 0 < k) :
    ∑ i ∈ Finset.range k, get_size i k m = m := by
  have h1 : ∑ i ∈ Finset.range k, get_size i k m =
      boundary m k k - boundary m k 0 :=
    Finset.sum_range_tsub (boundary_mono m k) k
  rw [h1]
  simp [boundary, Nat.mul_div_cancel m hk]

/-- Exactly `m % k` of the `k` buckets get the larger share `m / k + 1`. -/
theorem card_large_get_size (k m : ℕ) (hk : 0 < k) :
    ((Finset.range k).filter (fun i => get_size i k m = m / k + 1)).card = m % k := by
  have hcard : ((Finset.range k).filter (fun i => get_size i k m = m / k + 1)).card =
      ∑ i ∈ Finset.range k, if get_size i k m = m / k + 1 then 1 else 0 :=
    Finset.card_filter _ _
  have hpt : ∀ i ∈ Finset.range k,
      (if get_size i k m = m / k + 1 then 1 else 0) + m / k = get_size i k m := by
    intro i _
    rcases get_size_eq_or i k m hk with h | h
    · rw [h, if_neg (by simp), Nat.zero_add]
    · rw [h, if_pos rfl, Nat.add_comm]
  have hsum : ∑ i ∈ Finset.range k,
      ((if get_size i k m = m / k + 1 then 1 else 0) + m / k) = m := by
    rw [Finset.sum_congr rfl hpt, sum_get_size k m hk]
  rw [Finset.sum_add_distrib, Finset.sum_const, Finset.card_range, smul_eq_mul] at hsum
  have hmod := Nat.mod_add_div m k
  rw [hcard]
  revert hsum hmod
  generalize (∑ i ∈ Finset.range k, if get_size i k m = m / k + 1 then 1 else 0) = S
  generalize k * (m / k) = P
  generalize m % k = R
  intro h1 h2
  omega

/-! ### Range splitter (`processors_work_share.py`) -/

/-- Problem size of the range-splitter script: `2 ** 10`. -/
def problem_size : ℕ := 2 ^ 10

/-- Worker count of the range-splitter script. -/
def processors : ℕ := 28

/-- Generalised share-size formula of the list comprehension building
`problem_shares` (spec §4.3 Output A): worker `i` gets
`m / k + 1` when `i < m % k`, else `m / k`; `i in range(m % k)` is
`i < m % k` for the nonnegative loop index `i`. -/
def shares (m k : ℕ) : List ℕ :=
  (List.range k).map (fun i => m / k + if i < m % k then 1 else 0)

/-- The share list of the source script, for `problem_size` and
`processors` (source: `problem_shares = [problem_size // processors + (1
if i in range(problem_size % processors) else 0) for i in
range(processors)]`). -/
def problem_shares : List ℕ :=
  (List.range processors).map
    (fun i => problem_size / processors + if i < problem_size % processors then 1 else 0)

/-- Generalised range list (spec §4.3 Output B): half-open interval
`[boundary(i), boundary(i+1))` for each worker, encoded as a start/stop
pair exactly as the `range(...)` objects of the source. -/
def ranges (m k : ℕ) : List (ℕ × ℕ) :=
  (List.range k).map (fun i => (boundary m k i, boundary m k (i + 1)))

/-- The range list of the source script (source: `problem_ranges =
[range(floor(problem_size / processors * i), floor(problem_size /
processors * (i + 1))) for i in range(processors)]`). -/
def problem_ranges : List (ℕ × ℕ) := ranges problem_size processors

/-- Python-semantics model of `get_size` over the full signed domain:
division by zero raises (`none`), otherwise the two real-division floors
are subtracted; `(m * x).fdiv k` is `floor(m / k * x)` by
`fdiv_eq_floor_div`. -/
def get_sizeE (i k m : ℤ) : Option ℤ :=
  if k = 0 then none else some ((m * (i + 1)).fdiv k - (m * i).fdiv k)

/-- `get_sizeE` computes exactly the floors of the real-valued divisions of
the source for every nonzero bucket count, positive or negative. -/
theorem get_sizeE_eq_floor (i k m : ℤ) (hk : k ≠ 0) :
    get_sizeE i k m =
      some (⌊(m : ℚ) / (k : ℚ) * ((i : ℚ) + 1)⌋ - ⌊(m : ℚ) / (k : ℚ) * (i : ℚ)⌋) := by
  rw [get_sizeE, if_neg hk]
  have h1 : (m : ℚ) / (k : ℚ) * ((i : ℚ) + 1) = ((m * (i + 1) : ℤ) : ℚ) / (k : ℚ) := by
    push_cast
    ring
  have h2 : (m : ℚ) / (k : ℚ) * (i : ℚ) = ((m * i : ℤ) : ℚ) / (k : ℚ) := by
    push_cast
    ring
  rw [h1, h2, ← fdiv_eq_floor_div _ _ hk, ← fdiv_eq_floor_div _ _ hk]

/-- Python-semantics model of the `problem_shares` comprehension for an
arbitrary signed `problem_size = m` and `processors = k`: `range(k)` is
empty for `k <= 0` (so the body, with its divisions, is never evaluated
and nothing fails), and `//` and `%` are floor division and floor
modulus. -/
def sharesE (m k : ℤ) : List ℤ :=
  (List.range k.toNat).map
    (fun (i : ℕ) => m.fdiv k + if (i : ℤ) < m.fmod k then 1 else 0)

/-- Python-semantics model of the `problem_ranges` comprehension for an
arbitrary signed `problem_size = m` and `processors = k`: as in `sharesE`,
`range(k)` is empty for `k <= 0` and the body is never evaluated; each
entry is the start/stop pair `(floor(m / k * i), floor(m / k * (i + 1)))`,
with the floors written as flooring division (`rangesE_getD_eq_floor`
certifies this against the rational floors). -/
def rangesE (m k : ℤ) : List (ℤ × ℤ) :=
  (List.range k.toNat).map
    (fun (i : ℕ) => ((m * (i : ℤ)).fdiv k, (m * ((i : ℤ) + 1)).fdiv k))

/-- Every entry of `rangesE` computes exactly the floors of the real-valued
divisions of the source, for every nonzero worker count, positive or
negative. -/
theorem rangesE_getD_eq_floor (m k : ℤ) (hk : k ≠ 0) (i : ℕ)
    (hik : i < k.toNat) :
    (rangesE m k).getD i (0, 0) =
      (⌊(m : ℚ) / (k : ℚ) * (i : ℚ)⌋, ⌊(m : ℚ) / (k : ℚ) * ((i : ℚ) + 1)⌋) := by
  have hlen : i < (rangesE m k).length := by
    simp only [rangesE, List.length_map, List.length_range]
    exact hik
  rw [List.getD_eq_getElem _ _ hlen]
  have h1 : (m : ℚ) / (k : ℚ) * (i : ℚ) = ((m * (i : ℤ) : ℤ) : ℚ) / (k : ℚ) := by
    push_cast
    ring
  have h2 : (m : ℚ) / (k : ℚ) * ((i : ℚ) + 1) =
      ((m * ((i : ℤ) + 1) : ℤ) : ℚ) / (k : ℚ) := by
    push_cast
    ring
  rw [h1, h2, ← fdiv_eq_floor_div _ _ hk, ← fdiv_eq_floor_div _ _ hk]
  simp only [rangesE, List.getElem_map, List.getElem_range]

/-! ### Array rebalancer (`array_rebalancing.py`) -/

/-- The hardcoded input arrays of the rebalancing script. -/
def arrays : List (List ℤ) :=
  [[3, 5], [3, 6, 9, 7], [6, 9, 2, 7, 5, 2, 1, 2], [1, 4, 3], [4, 2, 5, 1]]

/-- Total element count: the script computes `M` by summing the lengths of
all arrays. -/
def totalLen (a : List (List ℤ)) : ℕ := (a.map List.length).sum

/-- One iteration of the inner `for j in range(K)` loop: if array `j` is
below its required size, move `transfer = min(overflow, underflow)`
trailing elements of array `i` onto the end of array `j` and truncate
array `i`; mirrors the source statements exactly (including reading
`len(arrays[i])` again after `arrays[j]` was extended). -/
def innerBody (k m i : ℕ) (a : List (List ℤ)) (j : ℕ) : List (List ℤ) :=
  if (a.getD j []).length < get_size j k m then
    let overflow := (a.getD i []).length - get_size i k m
    let underflow := get_size j k m - (a.getD j []).length
    let transfer := min overflow underflow
    let a1 := a.set j
      (a.getD j [] ++ (a.getD i []).drop ((a.getD i []).length - transfer))
    a1.set i ((a1.getD i []).take ((a1.getD i []).length - transfer))
  else a

/-- The inner `for j in range(K)` loop, for a fixed source index `i`. -/
def innerLoop (k m i : ℕ) (a : List (List ℤ)) : List (List ℤ) :=
  (List.range k).foldl (innerBody k m i) a

/-- One iteration of the outer `for i in range(K)` loop: if array `i` is
over-sized, run the inner loop draining it into under-sized arrays. -/
def outerBody (k m : ℕ) (a : List (List ℤ)) (i : ℕ) : List (List ℤ) :=
  if get_size i k m < (a.getD i []).length then innerLoop k m i a else a

/-- The whole rebalancing pass: `K = len(arrays)` and `M = sum of lengths`
are computed once up front and held fixed, then the outer loop runs once
over all indices. -/
def rebalance (a : List (List ℤ)) : List (List ℤ) :=
  (List.range a.length).foldl (outerBody a.length (totalLen a)) a


/-- `getD` after `set` at the written index. -/
theorem list_getD_set_eq {α : Type} (l : List α) (i : ℕ) (x d : α)
    (h : i < l.length) : (l.set i x).getD i d = x := by
  induction l generalizing i with
  | nil => simp at h
  | cons hd tl ih =>
    cases i with
    | zero => rfl
    | succ n => exact ih n (by simpa using h)

/-- `getD` after `set` at another index. -/
theorem list_getD_set_ne {α : Type} (l : List α) (i j : ℕ) (x d : α)
    (hij : i ≠ j) : (l.set i x).getD j d = l.getD j d := by
  induction l generalizing i j with
  | nil => rfl
  | cons hd tl ih =>
    cases i with
    | zero =>
      cases j with
      | zero => exact absurd rfl hij
      | succ p => rfl
    | succ n =>
      cases j with
      | zero => rfl
      | succ p => exact ih n p (by omega)

/-- Writing back the value already present does not change the list. -/
theorem list_set_getD_self {α : Type} (l : List α) (i : ℕ) (d : α) :
    l.set i (l.getD i d) = l := by
  induction l generalizing i with
  | nil => rfl
  | cons hd tl ih =>
    cases i with
    | zero => rfl
    | succ n =>
      show hd :: tl.set n (tl.getD n d) = hd :: tl
      rw [ih n]

/-- `totalLen` of a cons. -/
theorem totalLen_cons (x : List ℤ) (t : List (List ℤ)) :
    totalLen (x :: t) = x.length + totalLen t := by
  simp [totalLen]

/-- Substituting one entry trades its length for the length of the new
entry in `totalLen`. -/
theorem totalLen_set (a : List (List ℤ)) (j : ℕ) (x : List ℤ)
    (hj : j < a.length) :
    totalLen (a.set j x) + (a.getD j []).length = totalLen a + x.length := by
  induction a generalizing j with
  | nil => simp at hj
  | cons hd tl ih =>
    cases j with
    | zero =>
      show totalLen (x :: tl) + hd.length = totalLen (hd :: tl) + x.length
      rw [totalLen_cons, totalLen_cons]
      omega
    | succ n =>
      show totalLen (hd :: tl.set n x) + (tl.getD n []).length =
        totalLen (hd :: tl) + x.length
      rw [totalLen_cons, totalLen_cons]
      have := ih n (by simpa using hj)
      omega

/-- `totalLen` as a sum of the entry lengths over the index range. -/
theorem totalLen_eq_sum (a : List (List ℤ)) :
    totalLen a = ∑ p ∈ Finset.range a.length, (a.getD p []).length := by
  induction a with
  | nil => simp [totalLen]
  | cons hd tl ih =>
    rw [totalLen_cons, ih, List.length_cons, Finset.sum_range_succ']
    simp only [List.getD_cons_succ, List.getD_cons_zero]
    omega

/-- Multiset of all elements held by the arrays. -/
def elems (a : List (List ℤ)) : Multiset ℤ := (a.map (fun l => (l : Multiset ℤ))).sum

/-- `elems` of a cons. -/
theorem elems_cons (x : List ℤ) (t : List (List ℤ)) :
    elems (x :: t) = (x : Multiset ℤ) + elems t := by
  simp [elems]

/-- Substituting one entry trades its elements for the elements of the new
entry in `elems`. -/
theorem elems_set (a : List (List ℤ)) (j : ℕ) (x : List ℤ)
    (hj : j < a.length) :
    elems (a.set j x) + (a.getD j [] : Multiset ℤ) = elems a + (x : Multiset ℤ) := by
  induction a generalizing j with
  | nil => simp at hj
  | cons hd tl ih =>
    cases j with
    | zero =>
      show elems (x :: tl) + (hd : Multiset ℤ) = elems (hd :: tl) + (x : Multiset ℤ)
      rw [elems_cons, elems_cons]
      abel
    | succ n =>
      show elems (hd :: tl.set n x) + (tl.getD n [] : Multiset ℤ) =
        elems (hd :: tl) + (x : Multiset ℤ)
      rw [elems_cons, elems_cons]
      have h := ih n (by simpa using hj)
      rw [add_assoc, h, add_assoc]

/-- A transfer from an array to itself is impossible: when `j = i`, either
the guard fails, or the overflow is zero and the statements are no-ops. -/
theorem innerBody_self (k m i : ℕ) (a : List (List ℤ)) :
    innerBody k m i a i = a := by
  by_cases hg : (a.getD i []).length < get_size i k m
  · have h0 : (a.getD i []).length - get_size i k m = 0 := by omega
    unfold innerBody
    rw [if_pos hg]
    simp only [h0, Nat.zero_min, Nat.sub_zero, List.drop_length, List.append_nil,
      list_set_getD_self, List.take_length]
  · unfold innerBody
    rw [if_neg hg]

/-- Structural form of a real transfer (`i` and `j` distinct, guard
holding): array `j` is extended by the moved suffix and array `i` is
truncated. -/
theorem innerBody_eq_set (k m i j : ℕ) (a : List (List ℤ))
    (hij : i ≠ j) (hg : (a.getD j []).length < get_size j k m) :
    innerBody k m i a j =
      (a.set j (a.getD j [] ++ (a.getD i []).drop ((a.getD i []).length -
          min ((a.getD i []).length - get_size i k m)
            (get_size j k m - (a.getD j []).length)))).set i
        ((a.getD i []).take ((a.getD i []).length -
          min ((a.getD i []).length - get_size i k m)
            (get_size j k m - (a.getD j []).length))) := by
  unfold innerBody
  rw [if_pos hg]
  simp only [list_getD_set_ne a j i _ [] (Ne.symm hij)]

/-- All single-step invariants of one inner-loop iteration: lengths of the
list and of the entries, total length, element multiset, the underflow cap
on the receiver, the overflow cap on the source, and the drain dichotomy
(either the receiver ends at its required size or the source does). -/
theorem innerBody_facts (k m i j : ℕ) (a : List (List ℤ))
    (hi : i < a.length) (hj : j < a.length) :
    (innerBody k m i a j).length = a.length ∧
    totalLen (innerBody k m i a j) = totalLen a ∧
    elems (innerBody k m i a j) = elems a ∧
    ((innerBody k m i a j).getD i []).length ≤ (a.getD i []).length ∧
    (∀ p, p ≠ i → p ≠ j →
      ((innerBody k m i a j).getD p []).length = (a.getD p []).length) ∧
    (∀ p, ((innerBody k m i a j).getD p []).length ≤
      max ((a.getD p []).length) (get_size p k m)) ∧
    (∀ p, get_size p k m ≤ (a.getD p []).length →
      get_size p k m ≤ ((innerBody k m i a j).getD p []).length) ∧
    (a.getD i []).length - ((innerBody k m i a j).getD i []).length ≤
      (a.getD i []).length - get_size i k m ∧
    ((a.getD j []).length < get_size j k m →
      ((innerBody k m i a j).getD j []).length ≤ get_size j k m) ∧
    (get_size i k m ≤ (a.getD i []).length →
      get_size j k m ≤ ((innerBody k m i a j).getD j []).length ∨
        ((innerBody k m i a j).getD i []).length ≤ get_size i k m) := by
  by_cases hij : i = j
  · subst hij
    rw [innerBody_self]
    refine ⟨rfl, rfl, rfl, le_refl _, fun p _ _ => rfl, fun p => le_max_left _ _,
      fun p h => h, by omega, fun h => h.le, fun h => Or.inl h⟩
  · by_cases hg : (a.getD j []).length < get_size j k m
    · obtain ⟨t, ht⟩ : ∃ t, t = min ((a.getD i []).length - get_size i k m)
          (get_size j k m - (a.getD j []).length) := ⟨_, rfl⟩
      have hb : innerBody k m i a j =
          (a.set j (a.getD j [] ++
            (a.getD i []).drop ((a.getD i []).length - t))).set i
            ((a.getD i []).take ((a.getD i []).length - t)) := by
        rw [ht]
        exact innerBody_eq_set k m i j a hij hg
      set w := a.getD j [] ++ (a.getD i []).drop ((a.getD i []).length - t) with hwdef
      set v := (a.getD i []).take ((a.getD i []).length - t) with hvdef
      have htle : t ≤ (a.getD i []).length - get_size i k m := by
        rw [ht]
        exact Nat.min_le_left _ _
      have htle2 : t ≤ get_size j k m - (a.getD j []).length := by
        rw [ht]
        exact Nat.min_le_right _ _
      have htn : t ≤ (a.getD i []).length := le_trans htle (Nat.sub_le _ _)
      have hbl : (innerBody k m i a j).length = a.length := by
        rw [hb, List.length_set, List.length_set]
      have hi1 : i < (a.set j w).length := by
        rw [List.length_set]
        exact hi
      have hgi : (innerBody k m i a j).getD i [] = v := by
        rw [hb]
        exact list_getD_set_eq _ i v [] hi1
      have hgj : (innerBody k m i a j).getD j [] = w := by
        rw [hb, list_getD_set_ne _ i j v [] hij]
        exact list_getD_set_eq a j w [] hj
      have hgo : ∀ p, p ≠ i → p ≠ j →
          (innerBody k m i a j).getD p [] = a.getD p [] := by
        intro p hpi hpj
        rw [hb, list_getD_set_ne _ i p v [] (Ne.symm hpi),
          list_getD_set_ne a j p w [] (Ne.symm hpj)]
      have hlw : w.length = (a.getD j []).length + t := by
        rw [hwdef, List.length_append, List.length_drop]
        omega
      have hlv : v.length = (a.getD i []).length - t := by
        rw [hvdef, List.length_take]
        omega
      have hLi : ((innerBody k m i a j).getD i []).length =
          (a.getD i []).length - t := by
        rw [hgi, hlv]
      have hLj : ((innerBody k m i a j).getD j []).length =
          (a.getD j []).length + t := by
        rw [hgj, hlw]
      have hT : totalLen (innerBody k m i a j) = totalLen a := by
        have e1 := totalLen_set a j w hj
        have e2 := totalLen_set (a.set j w) i v hi1
        rw [list_getD_set_ne a j i w [] (Ne.symm hij)] at e2
        rw [hb]
        omega
      have hE : elems (innerBody k m i a j) = elems a := by
        have e1 := elems_set a j w hj
        have e2 := elems_set (a.set j w) i v hi1
        rw [list_getD_set_ne a j i w [] (Ne.symm hij)] at e2
        have hw2 : (w : Multiset ℤ) = (a.getD j [] : Multiset ℤ) +
            ((a.getD i []).drop ((a.getD i []).length - t) : Multiset ℤ) := by
          rw [hwdef]
          exact (Multiset.coe_add _ _).symm
        have hsplit : (v : Multiset ℤ) +
            ((a.getD i []).drop ((a.getD i []).length - t) : Multiset ℤ) =
            (a.getD i [] : Multiset ℤ) := by
          rw [hvdef, Multiset.coe_add, List.take_append_drop]
        have key : elems ((a.set j w).set i v) +
            ((a.getD i [] : Multiset ℤ) + (a.getD j [] : Multiset ℤ)) =
            elems a + ((a.getD i [] : Multiset ℤ) + (a.getD j [] : Multiset ℤ)) := by
          calc elems ((a.set j w).set i v) +
              ((a.getD i [] : Multiset ℤ) + (a.getD j [] : Multiset ℤ))
              = (elems ((a.set j w).set i v) + (a.getD i [] : Multiset ℤ)) +
                (a.getD j [] : Multiset ℤ) := by rw [add_assoc]
            _ = (elems (a.set j w) + (v : Multiset ℤ)) +
                (a.getD j [] : Multiset ℤ) := by rw [e2]
            _ = (elems (a.set j w) + (a.getD j [] : Multiset ℤ)) +
                (v : Multiset ℤ) := by abel
            _ = (elems a + (w : Multiset ℤ)) + (v : Multiset ℤ) := by rw [e1]
            _ = elems a + ((a.getD i [] : Multiset ℤ) +
                (a.getD j [] : Multiset ℤ)) := by
                rw [hw2, ← hsplit]
                abel
        rw [hb]
        exact add_right_cancel key
      have hmax : ∀ p, ((innerBody k m i a j).getD p []).length ≤
          max ((a.getD p []).length) (get_size p k m) := by
        intro p
        rcases eq_or_ne p i with rfl | hpi
        · omega
        · rcases eq_or_ne p j with rfl | hpj
          · omega
          · rw [hgo p hpi hpj]
            exact le_max_left _ _
      have hfloor : ∀ p, get_size p k m ≤ (a.getD p []).length →
          get_size p k m ≤ ((innerBody k m i a j).getD p []).length := by
        intro p hp
        rcases eq_or_ne p i with rfl | hpi
        · omega
        · rcases eq_or_ne p j with rfl | hpj
          · omega
          · rw [hgo p hpi hpj]
            exact hp
      refine ⟨hbl, hT, hE, by omega, fun p hpi hpj => by rw [hgo p hpi hpj],
        hmax, hfloor, by omega, fun _ => by omega, fun hri => by omega⟩
    · have hbeq : innerBody k m i a j = a := by
        unfold innerBody
        rw [if_neg hg]
      rw [hbeq]
      refine ⟨rfl, rfl, rfl, le_refl _, fun p _ _ => rfl, fun p => le_max_left _ _,
        fun p h => h, by omega, fun h => absurd h hg, fun _ => Or.inl (le_of_not_lt hg)⟩

/-- Invariants of the inner loop over any list of target indices:
preservation of lengths, total, and elements; the source only shrinks but
never below its required size; every entry stays below the maximum of its
start length and its required size; and the drain property: if the source
is still over-sized at the end, every visited target reached its required
size. -/
theorem innerFold_facts (k m i : ℕ) (js : List ℕ) :
    ∀ (a : List (List ℤ)), i < a.length → (∀ j ∈ js, j < a.length) →
    (js.foldl (innerBody k m i) a).length = a.length ∧
    totalLen (js.foldl (innerBody k m i) a) = totalLen a ∧
    elems (js.foldl (innerBody k m i) a) = elems a ∧
    ((js.foldl (innerBody k m i) a).getD i []).length ≤ (a.getD i []).length ∧
    (∀ p, ((js.foldl (innerBody k m i) a).getD p []).length ≤
      max ((a.getD p []).length) (get_size p k m)) ∧
    (∀ p, get_size p k m ≤ (a.getD p []).length →
      get_size p k m ≤ ((js.foldl (innerBody k m i) a).getD p []).length) ∧
    (get_size i k m ≤ (a.getD i []).length →
      get_size i k m < ((js.foldl (innerBody k m i) a).getD i []).length →
      ∀ j ∈ js, get_size j k m ≤ ((js.foldl (innerBody k m i) a).getD j []).length) := by
  induction js with
  | nil =>
    intro a _ _
    exact ⟨rfl, rfl, rfl, le_refl _, fun p => le_max_left _ _, fun p h => h,
      fun _ _ j hj => absurd hj (by simp)⟩
  | cons j rest ih =>
    intro a hi hjs
    have hj : j < a.length := hjs j (by simp)
    obtain ⟨hL, hT, hE, hS, _, hM, hF, _, _, hD⟩ := innerBody_facts k m i j a hi hj
    rw [List.foldl_cons]
    set a' := innerBody k m i a j with ha'
    have hi' : i < a'.length := by rw [hL]; exact hi
    have hjs' : ∀ o ∈ rest, o < a'.length := by
      intro o ho
      rw [hL]
      exact hjs o (List.mem_cons_of_mem j ho)
    obtain ⟨iL, iT, iE, iS, iM, iF, iD⟩ := ih a' hi' hjs'
    refine ⟨iL.trans hL, iT.trans hT, iE.trans hE, iS.trans hS, ?_, ?_, ?_⟩
    · intro p
      have h1 := iM p
      have h2 := hM p
      omega
    · intro p hp
      exact iF p (hF p hp)
    · intro hri hover j' hj'mem
      rcases List.mem_cons.mp hj'mem with rfl | hmem
      · rcases hD hri with hcase | hcase
        · exact iF j' hcase
        · have h3 := iS
          omega
      · exact iD (hF i hri) hover j' hmem

/-- Invariants of one outer-loop iteration, assuming the list has exactly
`k` entries whose lengths sum to `m` (as computed by the script): the
iteration preserves list length, total length and elements, keeps every
entry below the maximum of its start length and required size, never takes
an entry below a required size it already reached, and leaves entry `i` at
or below its required size. -/
theorem outerBody_facts (k m i : ℕ) (a : List (List ℤ))
    (hka : a.length = k) (hi : i < k) (hM : totalLen a = m)
    (hsum : ∑ p ∈ Finset.range k, get_size p k m = m) :
    (outerBody k m a i).length = a.length ∧
    totalLen (outerBody k m a i) = totalLen a ∧
    elems (outerBody k m a i) = elems a ∧
    (∀ p, ((outerBody k m a i).getD p []).length ≤
      max ((a.getD p []).length) (get_size p k m)) ∧
    (∀ p, get_size p k m ≤ (a.getD p []).length →
      get_size p k m ≤ ((outerBody k m a i).getD p []).length) ∧
    ((outerBody k m a i).getD i []).length ≤ get_size i k m := by
  by_cases hg : get_size i k m < (a.getD i []).length
  · have hiK : i < a.length := by omega
    have hin : ∀ j ∈ List.range k, j < a.length := by
      intro j hj
      rw [hka]
      exact List.mem_range.mp hj
    obtain ⟨fL, fT, fE, fS, fM, fF, fD⟩ :=
      innerFold_facts k m i (List.range k) a hiK hin
    have hbody : outerBody k m a i = (List.range k).foldl (innerBody k m i) a := by
      rw [outerBody, if_pos hg]
      rfl
    rw [hbody]
    refine ⟨fL, fT, fE, fM, fF, ?_⟩
    by_contra hover
    push_neg at hover
    have hall := fD hg.le hover
    have hsb : totalLen ((List.range k).foldl (innerBody k m i) a) =
        ∑ p ∈ Finset.range k,
          (((List.range k).foldl (innerBody k m i) a).getD p []).length := by
      rw [totalLen_eq_sum, fL, hka]
    have hstrict : ∑ p ∈ Finset.range k, get_size p k m <
        ∑ p ∈ Finset.range k,
          (((List.range k).foldl (innerBody k m i) a).getD p []).length :=
      Finset.sum_lt_sum
        (fun p hp => hall p (List.mem_range.mpr (Finset.mem_range.mp hp)))
        ⟨i, Finset.mem_range.mpr hi, hover⟩
    have hTb := fT
    omega
  · have hbody : outerBody k m a i = a := by
      rw [outerBody, if_neg hg]
    rw [hbody]
    exact ⟨rfl, rfl, rfl, fun p => le_max_left _ _, fun p h => h, le_of_not_lt hg⟩

/-- Invariants of the outer loop over any list of source indices below
`k`: preservation of list length, total length and elements; entries at or
below their required size stay there; entries at or above their required
size stay there; and every visited index ends at or below its required
size. -/
theorem outerFold_facts (k m : ℕ)
    (hsum : ∑ p ∈ Finset.range k, get_size p k m = m) (os : List ℕ) :
    ∀ a : List (List ℤ), a.length = k → totalLen a = m → (∀ o ∈ os, o < k) →
    (os.foldl (outerBody k m) a).length = a.length ∧
    totalLen (os.foldl (outerBody k m) a) = totalLen a ∧
    elems (os.foldl (outerBody k m) a) = elems a ∧
    (∀ p, ((os.foldl (outerBody k m) a).getD p []).length ≤
      max ((a.getD p []).length) (get_size p k m)) ∧
    (∀ p, (a.getD p []).length ≤ get_size p k m →
      ((os.foldl (outerBody k m) a).getD p []).length ≤ get_size p k m) ∧
    (∀ p, get_size p k m ≤ (a.getD p []).length →
      get_size p k m ≤ ((os.foldl (outerBody k m) a).getD p []).length) ∧
    (∀ o ∈ os, ((os.foldl (outerBody k m) a).getD o []).length ≤ get_size o k m) := by
  induction os with
  | nil =>
    intro a _ _ _
    exact ⟨rfl, rfl, rfl, fun p => le_max_left _ _, fun p h => h, fun p h => h,
      fun o ho => absurd ho (by simp)⟩
  | cons o rest ih =>
    intro a ha hT hos
    have hoK : o < k := hos o (by simp)
    obtain ⟨bL, bT, bE, bM, bF, bD⟩ := outerBody_facts k m o a ha hoK hT hsum
    rw [List.foldl_cons]
    obtain ⟨rL, rT, rE, rM, rC, rF, rD⟩ := ih (outerBody k m a o) (bL.trans ha)
      (bT.trans hT) (fun o' ho' => hos o' (List.mem_cons_of_mem o ho'))
    refine ⟨rL.trans bL, rT.trans bT, rE.trans bE, ?_, ?_, ?_, ?_⟩
    · intro p
      have h1 := rM p
      have h2 := bM p
      omega
    · intro p hp
      have h1 := bM p
      exact rC p (by omega)
    · intro p hp
      exact rF p (bF p hp)
    · intro o' ho'
      rcases List.mem_cons.mp ho' with rfl | hmem
      · exact rC o' bD
      · exact rD o' hmem

/-- Master theorem for the rebalancer: the pass preserves list length,
total length and the element multiset, and every array ends exactly at its
required size as computed from the original total. -/
theorem rebalance_master (a : List (List ℤ)) :
    (rebalance a).length = a.length ∧
    totalLen (rebalance a) = totalLen a ∧
    elems (rebalance a) = elems a ∧
    ∀ i, i < a.length →
      ((rebalance a).getD i []).length = get_size i a.length (totalLen a) := by
  have hsum : ∑ p ∈ Finset.range a.length,
      get_size p a.length (totalLen a) = totalLen a := by
    rcases Nat.eq_zero_or_pos a.length with h0 | hpos
    · have : a = [] := List.length_eq_zero.mp h0
      subst this
      simp [totalLen]
    · exact sum_get_size _ _ hpos
  obtain ⟨L, T, E, M, C, F, D⟩ := outerFold_facts a.length (totalLen a) hsum
    (List.range a.length) a rfl rfl (fun o ho => List.mem_range.mp ho)
  have hreb : rebalance a =
      (List.range a.length).foldl (outerBody a.length (totalLen a)) a := rfl
  rw [hreb]
  refine ⟨L, T, E, ?_⟩
  intro i hi
  have hle := D i (List.mem_range.mpr hi)
  by_contra hne
  have hlt : (((List.range a.length).foldl (outerBody a.length (totalLen a))
      a).getD i []).length < get_size i a.length (totalLen a) :=
    lt_of_le_of_ne hle hne
  have hsb : totalLen ((List.range a.length).foldl
      (outerBody a.length (totalLen a)) a) =
      ∑ p ∈ Finset.range a.length,
        (((List.range a.length).foldl (outerBody a.length (totalLen a))
          a).getD p []).length := by
    rw [totalLen_eq_sum, L]
  have hstrict : ∑ p ∈ Finset.range a.length,
      (((List.range a.length).foldl (outerBody a.length (totalLen a))
        a).getD p []).length <
      ∑ p ∈ Finset.range a.length, get_size p a.length (totalLen a) :=
    Finset.sum_lt_sum
      (fun p hp => D p (List.mem_range.mpr (Finset.mem_range.mp hp)))
      ⟨i, Finset.mem_range.mpr hi, hlt⟩
  omega

/-- Required sizes for a list always sum to its total length (also when
the list is empty). -/
theorem sum_get_size_total (a : List (List ℤ)) :
    ∑ p ∈ Finset.range a.length, get_size p a.length (totalLen a) = totalLen a := by
  rcases Nat.eq_zero_or_pos a.length with h0 | hpos
  · have : a = [] := List.length_eq_zero.mp h0
    subst this
    simp [totalLen]
  · exact sum_get_size _ _ hpos

/-- Corollary of the outer-loop invariants: after the pass no array
exceeds the maximum of its starting length and its required size. -/
theorem rebalance_max_bound (a : List (List ℤ)) (p : ℕ) :
    ((rebalance a).getD p []).length ≤
      max ((a.getD p []).length) (get_size p a.length (totalLen a)) := by
  obtain ⟨_, _, _, M, _, _, _⟩ := outerFold_facts a.length (totalLen a)
    (sum_get_size_total a) (List.range a.length) a rfl rfl
    (fun o ho => List.mem_range.mp ho)
  exact M p

/-- Corollary of the outer-loop invariants: an array at or above its
required size at the start of the pass never ends below it. -/
theorem rebalance_floor (a : List (List ℤ)) (p : ℕ)
    (h : get_size p a.length (totalLen a) ≤ (a.getD p []).length) :
    get_size p a.length (totalLen a) ≤ ((rebalance a).getD p []).length := by
  obtain ⟨_, _, _, _, _, F, _⟩ := outerFold_facts a.length (totalLen a)
    (sum_get_size_total a) (List.range a.length) a rfl rfl
    (fun o ho => List.mem_range.mp ho)
  exact F p h

/-- Below any cut index `n` the intervals of consecutive boundaries cover
every point: existence half of the partition property. -/
theorem boundary_exists_interval (m k : ℕ) :
    ∀ n x, x < boundary m k n →
      ∃ i, i < n ∧ boundary m k i ≤ x ∧ x < boundary m k (i + 1) := by
  intro n
  induction n with
  | zero =>
    intro x hx
    have h0 : boundary m k 0 = 0 := by simp [boundary]
    rw [h0] at hx
    exact absurd hx (Nat.not_lt_zero x)
  | succ n ih =>
    intro x hx
    rcases le_or_lt (boundary m k n) x with hge | hlt
    · exact ⟨n, Nat.lt_succ_self n, hge, hx⟩
    · obtain ⟨i, hin, h1, h2⟩ := ih x hlt
      exact ⟨i, Nat.lt_succ_of_lt hin, h1, h2⟩

/-- Sum of a mapped list over `range` equals the corresponding finset
sum. -/
theorem sum_list_range (f : ℕ → ℕ) (k : ℕ) :
    ((List.range k).map f).sum = ∑ i ∈ Finset.range k, f i := by
  induction k with
  | zero => simp
  | succ n ihn =>
    rw [List.range_succ, List.map_append, List.sum_append, Finset.sum_range_succ, ihn]
    simp

/-- The indices below `r` inside `range k` form `range r`. -/
theorem filter_range_lt (k r : ℕ) (hr : r ≤ k) :
    (Finset.range k).filter (fun i => i < r) = Finset.range r := by
  ext z
  simp only [Finset.mem_filter, Finset.mem_range]
  omega

/-- Counting the indices below `r` inside `range k`. -/
theorem sum_indicator_lt (k r : ℕ) (hr : r ≤ k) :
    ∑ i ∈ Finset.range k, (if i < r then 1 else 0) = r := by
  rw [← Finset.card_filter, filter_range_lt k r hr, Finset.card_range]

/-- Entry `i` of the generalised share list. -/
theorem shares_getD (m k i : ℕ) (hik : i < k) :
    (shares m k).getD i 0 = m / k + if i < m % k then 1 else 0 := by
  have hlen : i < (shares m k).length := by simp [shares, hik]
  rw [List.getD_eq_getElem _ _ hlen]
  simp [shares]

/-- The integer-formula shares sum to the total. -/
theorem shares_sum (m k : ℕ) (hk : 0 < k) : (shares m k).sum = m := by
  rw [shares, sum_list_range, Finset.sum_add_distrib, Finset.sum_const,
    Finset.card_range, smul_eq_mul, sum_indicator_lt k (m % k) (Nat.mod_lt m hk).le]
  have hmod := Nat.mod_add_div m k
  revert hmod
  generalize k * (m / k) = P
  generalize m % k = R
  intro hmod
  omega

/-- Exactly `m % k` workers get the larger integer-formula share. -/
theorem shares_count (m k : ℕ) (hk : 0 < k) :
    ((Finset.range k).filter (fun i => (shares m k).getD i 0 = m / k + 1)).card =
      m % k := by
  have hfe : (Finset.range k).filter (fun i => (shares m k).getD i 0 = m / k + 1) =
      (Finset.range k).filter (fun i => i < m % k) := by
    apply Finset.filter_congr
    intro i hi
    rw [shares_getD m k i (Finset.mem_range.mp hi)]
    rcases lt_or_ge i (m % k) with h | h
    · simp [h]
    · simp [if_neg (Nat.not_lt.mpr h), Nat.not_lt.mpr h]
  rw [hfe, filter_range_lt k (m % k) (Nat.mod_lt m hk).le, Finset.card_range]

/-! ### Claim theorems -/

/-- C1 (counterexample): the integer-division-plus-remainder share and the
floor-difference size disagree pointwise: for `problem_size = 2`,
`processors = 5`, worker 0 the share formula yields `1` while
`size(2, 5, 0) = floor(2/5) - 0 = 0`. -/
theorem C1_pointwise_counterexample :
    (shares 2 5).getD 0 0 = 1 ∧ get_size 0 5 2 = 0 ∧
      (shares 2 5).getD 0 0 ≠ get_size 0 5 2 := by decide

/-- C1 (amended): for every valid input the two formulas agree as
multisets rather than pointwise: under both formulas every value is
`m / k` or `m / k + 1`, exactly `m % k` indices receive the larger value,
and both sequences sum to `m`. -/
theorem C1_amended_shares_sizes_agree_as_multisets (m k : ℕ) (hk : 1 ≤ k) :
    (∀ i, i < k → (shares m k).getD i 0 = m / k + if i < m % k then 1 else 0) ∧
    (∀ i, i < k →
      ((shares m k).getD i 0 = m / k ∨ (shares m k).getD i 0 = m / k + 1)) ∧
    (∀ i, i < k → (get_size i k m = m / k ∨ get_size i k m = m / k + 1)) ∧
    (shares m k).sum = m ∧
    (∑ i ∈ Finset.range k, get_size i k m) = m ∧
    ((Finset.range k).filter (fun i => (shares m k).getD i 0 = m / k + 1)).card =
      m % k ∧
    ((Finset.range k).filter (fun i => get_size i k m = m / k + 1)).card = m % k := by
  refine ⟨fun i hi => shares_getD m k i hi, ?_, fun i _ => get_size_eq_or i k m hk,
    shares_sum m k hk, sum_get_size k m hk, shares_count m k hk,
    card_large_get_size k m hk⟩
  intro i hi
  rw [shares_getD m k i hi]
  split
  · exact Or.inr rfl
  · exact Or.inl (Nat.add_zero _)

/-- C1 (witness): the amended statement at `m = 6`, `k = 4`. -/
theorem C1_amended_witness :
    1 ≤ 4 ∧ 2 < 4 ∧ (get_size 2 4 6 = 6 / 4 ∨ get_size 2 4 6 = 6 / 4 + 1) ∧
      (shares 6 4).sum = 6 :=
  ⟨by decide, by decide,
    (C1_amended_shares_sizes_agree_as_multisets 6 4 (by decide)).2.2.1 2 (by decide),
    (C1_amended_shares_sizes_agree_as_multisets 6 4 (by decide)).2.2.2.1⟩

/-- C2 (counterexample): on the hardcoded input the total is `21`, not
`19`, and the final lengths are not `[4, 4, 4, 4, 3]`. -/
theorem C2_concrete_counterexample :
    totalLen arrays ≠ 19 ∧ (rebalance arrays).map List.length ≠ [4, 4, 4, 4, 3] := by
  decide

/-- C2 (amended): after the single pass every array length equals
`size(M, K, i)` computed from the original total; for the hardcoded input
`M = 21`, `K = 5`, and the final lengths are the required sizes
`[4, 4, 4, 4, 5]`. -/
theorem C2_rebalancer_reaches_required_sizes :
    (∀ a : List (List ℤ), ∀ i, i < a.length →
      ((rebalance a).getD i []).length = get_size i a.length (totalLen a)) ∧
    totalLen arrays = 21 ∧
    (rebalance arrays).map List.length = (List.range 5).map (fun i => get_size i 5 21) ∧
    (rebalance arrays).map List.length = [4, 4, 4, 4, 5] := by
  refine ⟨fun a i hi => (rebalance_master a).2.2.2 i hi, by decide, by decide, by decide⟩

/-- C2 (witness): the general statement applied to the hardcoded input at
index 0. -/
theorem C2_witness :
    0 < arrays.length ∧
      ((rebalance arrays).getD 0 []).length = get_size 0 arrays.length (totalLen arrays) :=
  ⟨by decide, C2_rebalancer_reaches_required_sizes.1 arrays 0 (by decide)⟩

/-- C3: for every total and positive bucket count the required sizes sum
exactly to the total. -/
theorem C3_sizes_sum_to_total (total bucket_count : ℕ) (hk : 1 ≤ bucket_count) :
    ∑ i ∈ Finset.range bucket_count, get_size i bucket_count total = total :=
  sum_get_size bucket_count total hk

/-- C3 (witness): instantiated at `total = 19`, `bucket_count = 5`. -/
theorem C3_witness : 1 ≤ 5 ∧ ∑ i ∈ Finset.range 5, get_size i 5 19 = 19 :=
  ⟨by decide, C3_sizes_sum_to_total 19 5 (by decide)⟩

/-- C4: any two required sizes differ by at most one, which is exactly the
statement that the maximum minus the minimum over all buckets is 0 or 1. -/
theorem C4_sizes_spread_at_most_one (total bucket_count : ℕ)
    (hk : 1 ≤ bucket_count) :
    ∀ i, i < bucket_count → ∀ j, j < bucket_count →
      get_size i bucket_count total ≤ get_size j bucket_count total + 1 := by
  intro i _ j _
  rcases get_size_eq_or i bucket_count total hk with h1 | h1 <;>
    rcases get_size_eq_or j bucket_count total hk with h2 | h2 <;>
      rw [h1, h2] <;> generalize total / bucket_count = q <;> omega

/-- C4 (witness): instantiated at `total = 21`, `bucket_count = 5`,
indices 0 and 4. -/
theorem C4_witness :
    1 ≤ 5 ∧ 0 < 5 ∧ 4 < 5 ∧ get_size 0 5 21 ≤ get_size 4 5 21 + 1 :=
  ⟨by decide, by decide, by decide,
    C4_sizes_spread_at_most_one 21 5 (by decide) 0 (by decide) 4 (by decide)⟩

/-- C5: the rebalancing pass conserves the total element count and the
multiset of all elements, for every input list of arrays. -/
theorem C5_rebalancer_conserves_elements (a : List (List ℤ)) :
    totalLen (rebalance a) = totalLen a ∧ elems (rebalance a) = elems a :=
  ⟨(rebalance_master a).2.1, (rebalance_master a).2.2.1⟩

/-- C6: a transfer into an under-sized array `j` is capped by its
underflow, so immediately afterwards `j` is still at or below its required
size; moreover every single step, and the whole pass, keep every array at
or below the maximum of its current length and its required size. -/
theorem C6_receive_cap :
    (∀ k m i j (a : List (List ℤ)), i < a.length → j < a.length →
      (a.getD j []).length < get_size j k m →
      ((innerBody k m i a j).getD j []).length ≤ get_size j k m) ∧
    (∀ k m i j (a : List (List ℤ)), i < a.length → j < a.length →
      ∀ p, ((innerBody k m i a j).getD p []).length ≤
        max ((a.getD p []).length) (get_size p k m)) ∧
    (∀ a : List (List ℤ), ∀ p,
      ((rebalance a).getD p []).length ≤
        max ((a.getD p []).length) (get_size p a.length (totalLen a))) :=
  ⟨fun k m i j a hi hj hg => (innerBody_facts k m i j a hi hj).2.2.2.2.2.2.2.2.1 hg,
    fun k m i j a hi hj => (innerBody_facts k m i j a hi hj).2.2.2.2.2.1,
    fun a p => rebalance_max_bound a p⟩

/-- C6 (witness): one concrete transfer, `a = [[1,2,3],[4]]`, `K = 2`,
`M = 4`, source 0, receiver 1 with required size 2. -/
theorem C6_witness :
    0 < ([[1, 2, 3], [4]] : List (List ℤ)).length ∧
    1 < ([[1, 2, 3], [4]] : List (List ℤ)).length ∧
    (([[1, 2, 3], [4]] : List (List ℤ)).getD 1 []).length < get_size 1 2 4 ∧
    ((innerBody 2 4 0 [[1, 2, 3], [4]] 1).getD 1 []).length ≤ get_size 1 2 4 :=
  ⟨by decide, by decide, by decide,
    C6_receive_cap.1 2 4 0 1 [[1, 2, 3], [4]] (by decide) (by decide) (by decide)⟩

/-- C8 (counterexample): a call with `bucket_count = -2` does not fail: it
returns the value `-3` (`floor(5 / -2 * 1) = -3`); and the range-splitter
comprehensions with `processors = 0` do not fail either, they both
evaluate to the empty list because `range(0)` is empty. -/
theorem C8_counterexample :
    get_sizeE 0 (-2) 5 = some (-3) ∧ sharesE 5 0 = [] ∧ rangesE 5 0 = [] := by
  decide

/-- C8 (amended): `get_size` fails fast exactly for `bucket_count = 0`
(zero division); for every other bucket count, negative ones and negative
totals included, it returns a value, and both range-splitter
comprehensions (shares and ranges) return an empty list, not a failure,
for every `processors <= 0`. -/
theorem C8_amended_fail_iff_zero_divisor :
    (∀ i k m : ℤ, get_sizeE i k m = none ↔ k = 0) ∧
    (∀ m k : ℤ, k ≤ 0 → sharesE m k = []) ∧
    (∀ m k : ℤ, k ≤ 0 → rangesE m k = []) := by
  refine ⟨?_, ?_, ?_⟩
  · intro i k m
    by_cases hk : k = 0
    · simp [get_sizeE, hk]
    · simp [get_sizeE, hk]
  · intro m k hk
    have h0 : k.toNat = 0 := Int.toNat_of_nonpos hk
    rw [sharesE, h0]
    rfl
  · intro m k hk
    have h0 : k.toNat = 0 := Int.toNat_of_nonpos hk
    rw [rangesE, h0]
    rfl

/-- C8 (witness): the amended statement applied at `processors = -1`, for
both comprehensions. -/
theorem C8_witness :
    (-1 : ℤ) ≤ 0 ∧ sharesE 5 (-1) = [] ∧ rangesE 5 (-1) = [] :=
  ⟨by decide, C8_amended_fail_iff_zero_divisor.2.1 5 (-1) (by decide),
    C8_amended_fail_iff_zero_divisor.2.2 5 (-1) (by decide)⟩

/-- C9 (counterexample): `1024 mod 28 = 16`, not 8, and the number of
workers receiving 37 is not 8. -/
theorem C9_counterexample :
    problem_shares.count 37 ≠ 8 ∧ problem_size % processors ≠ 8 := by decide

/-- C9 (amended): all 28 shares are 36 or 37 (the two counts exhaust the
list), exactly `1024 mod 28 = 16` workers receive 37, 12 receive 36, and
the shares sum to 1024. -/
theorem C9_amended_concrete_shares :
    problem_shares.length = 28 ∧
    problem_shares.count 37 = 16 ∧
    problem_shares.count 36 = 12 ∧
    problem_shares.count 37 + problem_shares.count 36 = problem_shares.length ∧
    problem_shares.sum = 1024 ∧
    problem_size % processors = 16 := by decide

/-- C10: a transfer removes at most `overflow` elements from the source,
so a source at or above its required size stays at or above it; the same
preservation holds for every array through every step and through the
whole pass. -/
theorem C10_source_floor :
    (∀ k m i j (a : List (List ℤ)), i < a.length → j < a.length →
      (a.getD i []).length - ((innerBody k m i a j).getD i []).length ≤
        (a.getD i []).length - get_size i k m) ∧
    (∀ k m i j (a : List (List ℤ)), i < a.length → j < a.length →
      ∀ p, get_size p k m ≤ (a.getD p []).length →
        get_size p k m ≤ ((innerBody k m i a j).getD p []).length) ∧
    (∀ a : List (List ℤ), ∀ p,
      get_size p a.length (totalLen a) ≤ (a.getD p []).length →
      get_size p a.length (totalLen a) ≤ ((rebalance a).getD p []).length) :=
  ⟨fun k m i j a hi hj => (innerBody_facts k m i j a hi hj).2.2.2.2.2.2.2.1,
    fun k m i j a hi hj => (innerBody_facts k m i j a hi hj).2.2.2.2.2.2.1,
    fun a p h => rebalance_floor a p h⟩

/-- C10 (witness): the per-step preservation on the concrete transfer of
the C6 witness, at the source position 0. -/
theorem C10_witness :
    0 < ([[1, 2, 3], [4]] : List (List ℤ)).length ∧
    1 < ([[1, 2, 3], [4]] : List (List ℤ)).length ∧
    get_size 0 2 4 ≤ (([[1, 2, 3], [4]] : List (List ℤ)).getD 0 []).length ∧
    get_size 0 2 4 ≤ ((innerBody 2 4 0 [[1, 2, 3], [4]] 1).getD 0 []).length :=
  ⟨by decide, by decide, by decide,
    C10_source_floor.2.1 2 4 0 1 [[1, 2, 3], [4]] (by decide) (by decide) 0 (by decide)⟩

/-- C7: the half-open intervals `[boundary(i), boundary(i+1))` listed in
`ranges` are contiguous (each starts where the previous one stops, by
construction) and increasing (the boundary is monotone), start at 0, stop
at `problem_size`, and every point of `[0, problem_size)` lies in exactly
one interval (no gap, no overlap). -/
theorem C7_ranges_partition (m k : ℕ) (hk : 1 ≤ k) :
    (∀ i, i < k → (ranges m k).getD i (0, 0) =
      (boundary m k i, boundary m k (i + 1))) ∧
    boundary m k 0 = 0 ∧
    boundary m k k = m ∧
    (∀ x y, x ≤ y → boundary m k x ≤ boundary m k y) ∧
    (∀ x, x < m → ∃! i, i < k ∧ boundary m k i ≤ x ∧ x < boundary m k (i + 1)) := by
  refine ⟨?_, by simp [boundary], ?_, fun x y h => boundary_mono m k h, ?_⟩
  · intro i hik
    have hlen : i < (ranges m k).length := by simp [ranges, hik]
    rw [List.getD_eq_getElem _ _ hlen]
    simp [ranges]
  · rw [boundary]
    exact Nat.mul_div_cancel m hk
  · intro x hx
    have hxm : x < boundary m k k := by
      rw [boundary, Nat.mul_div_cancel m hk]
      exact hx
    obtain ⟨i, hik, h1, h2⟩ := boundary_exists_interval m k k x hxm
    refine ⟨i, ⟨hik, h1, h2⟩, ?_⟩
    intro i2 hi2
    by_contra hne
    rcases Nat.lt_or_ge i2 i with hlt | hge
    · have hcb : boundary m k (i2 + 1) ≤ boundary m k i :=
        boundary_mono m k (Nat.succ_le_of_lt hlt)
      have hb2 := hi2.2.2
      omega
    · have hgt : i < i2 := by omega
      have hcb : boundary m k (i + 1) ≤ boundary m k i2 :=
        boundary_mono m k (Nat.succ_le_of_lt hgt)
      have hb2 := hi2.2.1
      omega

/-- C7 (witness): the partition statement at `problem_size = 19`,
`processors = 5`. -/
theorem C7_witness :
    1 ≤ 5 ∧
    ((∀ i, i < 5 → (ranges 19 5).getD i (0, 0) =
        (boundary 19 5 i, boundary 19 5 (i + 1))) ∧
      boundary 19 5 0 = 0 ∧
      boundary 19 5 5 = 19 ∧
      (∀ x y, x ≤ y → boundary 19 5 x ≤ boundary 19 5 y) ∧
      (∀ x, x < 19 → ∃! i, i < 5 ∧ boundary 19 5 i ≤ x ∧ x < boundary 19 5 (i + 1))) :=
  ⟨by decide, C7_ranges_partition 19 5 (by decide)⟩
